import Mathlib

/-!
# ACRN hypervisor: debug console and guest.h helpers

A shallow embedding of `hypervisor/debug/console.c` and of the iteration and
index definitions of `hypervisor/include/arch/x86/guest/guest.h`.

* Pointers into a character buffer are indices into a `List Nat` of bytes; a
  read outside the buffer has no defined result and is `none`.
* Every call that leaves `console.c` (spinlock, serial driver, vuart, shell,
  timer) is recorded, in order and with its arguments, in the `trace` of the
  console state.  Values that such calls return and the code uses (the handle
  of `serial_open`, the counter of `rdtsc`, the status of `add_timer`) are
  arguments of the embedded function.
* C `int` is `Int` with an explicit conversion `to_int` (32-bit two's
  complement); `uint64_t` is `Nat` with `to_uint64`.
-/

namespace Acrn

/-! ## Machine integers -/

/-- Largest value of a C `int` on the target (32 bits). -/
def INT_MAX : Int := 2147483647

/-- Conversion of an integer value to C `int`: reduction modulo 2^32 into
`[-2^31, 2^31)`, as the x86-64 compilers do it.  The sums `res += p - s` and
`res += 2` of console.c are taken through it; while the count of bytes is at
most `INT_MAX` it changes nothing. -/
def to_int (x : Int) : Int := (x + 2147483648) % 4294967296 - 2147483648

/-- Conversion of an `int` to `char`, kept as the byte that is stored (the low
eight bits). -/
def to_char (ch : Int) : Nat := (ch % 256).toNat

/-- Reduction of a natural number to `uint64_t`. -/
def to_uint64 (x : Nat) : Nat := x % 18446744073709551616

/-! ## console.c: state and collaborators -/

/-- Handler stored in a `struct timer`: a null pointer or the one callback this
file defines. -/
inductive timer_handle_t where
  | null
  | console_timer_callback
  deriving DecidableEq

/-- Modelled from the spec: the tick modes of timer.h, of which console.c uses
`TICK_MODE_PERIODIC` for its periodic callback registration. -/
inductive tick_mode where
  | TICK_MODE_ONESHOT
  | TICK_MODE_PERIODIC
  deriving DecidableEq

/-- Calls made by console.c to code outside the file, with the arguments that
matter.  `serial_puts handle data` stands for `serial_puts(handle, s, n)` where
`data` are the `n` bytes found at `s`. -/
inductive event where
  | spinlock_init
  | spinlock_obtain
  | spinlock_release
  | serial_open
  | serial_puts (handle : Nat) (data : List Nat)
  | serial_get_rx_data (handle : Nat)
  | vuart_console_rx_chars (handle : Nat)
  | vuart_console_tx_chars
  | shell_kick_session
  | pr_err
  | rdtsc
  | initialize_timer (func : timer_handle_t) (priv_data : Nat) (fire_tsc : Nat)
      (mode : tick_mode) (period_in_cycle : Nat)
  | add_timer
  deriving DecidableEq

/-- Constants that console.c takes from headers outside this file set. -/
structure platform where
  SERIAL_INVALID_HANDLE : Nat
  CYCLES_PER_MS : Nat

/-- File-scope state of console.c: the `serial_handle` variable and the calls
made so far. -/
structure console_state where
  serial_handle : Nat
  trace : List event
  deriving DecidableEq

/-- `CONSOLE_KICK_TIMER_TIMEOUT`: the timeout is 40 ms. -/
def CONSOLE_KICK_TIMER_TIMEOUT : Nat := 40

/-- State before `console_init` has run: `serial_handle` holds its static
initialiser. -/
def initial_state (pf : platform) : console_state :=
  { serial_handle := pf.SERIAL_INVALID_HANDLE, trace := [] }

/-- Record one call to a collaborator. -/
def call (st : console_state) (e : event) : console_state :=
  { st with trace := st.trace ++ [e] }

/-- Bytes `s[a] .. s[b-1]` of a buffer. -/
def slice (buf : List Nat) (a b : Nat) : List Nat := (buf.drop a).take (b - a)

/-- `get_serial_handle`. -/
def get_serial_handle (st : console_state) : Nat := st.serial_handle

/-- `print_char`: the byte itself, then a carriage return after a line feed. -/
def print_char (st : console_state) (x : Nat) : console_state :=
  let st := call st (.serial_puts st.serial_handle [x])
  if x = 10 then call st (.serial_puts st.serial_handle [13]) else st

/-- `console_init`; `handle` is what `serial_open("STDIO")` returned. -/
def console_init (st : console_state) (handle : Nat) : console_state :=
  let st := call st .spinlock_init
  let st := call st .serial_open
  { st with serial_handle := handle }

/-- `console_putc`. -/
def console_putc (pf : platform) (st : console_state) (ch : Int) : Int × console_state :=
  let res : Int := -1
  let st := call st .spinlock_obtain
  let r : Int × console_state :=
    if st.serial_handle ≠ pf.SERIAL_INVALID_HANDLE then
      (0, print_char st (to_char ch))
    else (res, st)
  (r.1, call r.2 .spinlock_release)

/-- Inner loop of `console_puts`: `while ((*p != 0) && *p != '\n') ++p;`,
returning the final `p`. -/
def puts_scan (buf : List Nat) : Nat → Nat → Option Nat
  | 0, _ => none
  | fuel + 1, p =>
    match buf[p]? with
    | none => none
    | some c => if c ≠ 0 ∧ c ≠ 10 then puts_scan buf fuel (p + 1) else some p

/-- Outer loop of `console_puts`: `while ((*s) != 0) { ... }`. -/
def puts_loop (buf : List Nat) : Nat → Nat → Int → console_state → Option (Int × console_state)
  | 0, _, _, _ => none
  | fuel + 1, s, res, st =>
    match buf[s]? with
    | none => none
    | some c =>
      if c ≠ 0 then
        match puts_scan buf (buf.length + 1) s with
        | none => none
        | some p =>
          let st := call st (.serial_puts st.serial_handle (slice buf s p))
          let res := to_int (res + ((p - s : Nat) : Int))
          match buf[p]? with
          | none => none
          | some d =>
            if d = 10 then
              puts_loop buf fuel (p + 1) (to_int (res + 2)) (print_char st 10)
            else puts_loop buf fuel p res st
      else some (res, st)

/-- `console_puts`; the buffer holds the bytes found at `s_arg`.  Every round
of either loop reads a further byte of the buffer, so one more than the buffer
length bounds the number of rounds; the result is `none` when the code reads
past the end of the buffer (no NUL byte in it). -/
def console_puts (pf : platform) (st : console_state) (s_arg : List Nat) :
    Option (Int × console_state) :=
  let res : Int := -1
  let st := call st .spinlock_obtain
  let r : Option (Int × console_state) :=
    if st.serial_handle ≠ pf.SERIAL_INVALID_HANDLE then
      puts_loop s_arg (s_arg.length + 1) 0 0 st
    else some (res, st)
  match r with
  | none => none
  | some (res, st) => some (res, call st .spinlock_release)

/-- Inner loop of `console_write`: `while ((p != e) && (*p != '\n')) ++p;`,
returning the final `p`. -/
def write_scan (buf : List Nat) (e : Nat) : Nat → Nat → Option Nat
  | 0, _ => none
  | fuel + 1, p =>
    if p ≠ e then
      match buf[p]? with
      | none => none
      | some c => if c ≠ 10 then write_scan buf e fuel (p + 1) else some p
    else some p

/-- Outer loop of `console_write`: `while (s != e) { ... }`. -/
def write_loop (buf : List Nat) (e : Nat) : Nat → Nat → Int → console_state →
    Option (Int × console_state)
  | 0, _, _, _ => none
  | fuel + 1, s, res, st =>
    if s ≠ e then
      match write_scan buf e (buf.length + 1) s with
      | none => none
      | some p =>
        let st := call st (.serial_puts st.serial_handle (slice buf s p))
        let res := to_int (res + ((p - s : Nat) : Int))
        if p ≠ e then
          write_loop buf e fuel (p + 1) (to_int (res + 2)) (print_char st 10)
        else write_loop buf e fuel p res st
    else some (res, st)

/-- `console_write`; the buffer holds the bytes found at `s_arg`, and
`e = s + len`.  The rounds are bounded as in `console_puts`; the result is
`none` when the code reads past the end of the buffer (`len` exceeds it). -/
def console_write (pf : platform) (st : console_state) (s_arg : List Nat) (len : Nat) :
    Option (Int × console_state) :=
  let res : Int := -1
  let st := call st .spinlock_obtain
  let r : Option (Int × console_state) :=
    if st.serial_handle ≠ pf.SERIAL_INVALID_HANDLE then
      write_loop s_arg (0 + len) (s_arg.length + 1) 0 0 st
    else some (res, st)
  match r with
  | none => none
  | some (res, st) => some (res, call st .spinlock_release)

/-- `console_read`. -/
def console_read (pf : platform) (st : console_state) : console_state :=
  let st := call st .spinlock_obtain
  let st :=
    if st.serial_handle ≠ pf.SERIAL_INVALID_HANDLE then
      call st (.serial_get_rx_data st.serial_handle)
    else st
  call st .spinlock_release

/-- `console_handler`. -/
def console_handler (pf : platform) (st : console_state) : console_state :=
  let st := console_read pf st
  let st := call st (.vuart_console_rx_chars st.serial_handle)
  let st := call st .vuart_console_tx_chars
  call st .shell_kick_session

/-- `console_timer_callback`; the argument is unused. -/
def console_timer_callback (pf : platform) (st : console_state) (_data : Nat) :
    Int × console_state :=
  let st := console_handler pf st
  (0, st)

/-- `console_setup_timer`; `tsc` is the value `rdtsc()` returns and
`add_timer_ret` the status `add_timer` returns. -/
def console_setup_timer (pf : platform) (st : console_state) (tsc : Nat)
    (add_timer_ret : Int) : console_state :=
  if st.serial_handle = pf.SERIAL_INVALID_HANDLE then
    call st .pr_err
  else
    let period_in_cycle := to_uint64 (pf.CYCLES_PER_MS * CONSOLE_KICK_TIMER_TIMEOUT)
    let st := call st .rdtsc
    let fire_tsc := to_uint64 (tsc + period_in_cycle)
    let st := call st (.initialize_timer .console_timer_callback 0 fire_tsc
      .TICK_MODE_PERIODIC period_in_cycle)
    let st := call st .add_timer
    if add_timer_ret ≠ 0 then call st .pr_err else st

/-! ## Reading a trace -/

/-- Bytes handed to the serial port `h`, in order. -/
def serial_output (h : Nat) : List event → List Nat
  | [] => []
  | .serial_puts h' data :: t => if h' = h then data ++ serial_output h t else serial_output h t
  | _ :: t => serial_output h t

/-- A byte string with a carriage return inserted after every line feed. -/
def crlf : List Nat → List Nat
  | [] => []
  | c :: cs => if c = 10 then 10 :: 13 :: crlf cs else c :: crlf cs

/-- C library `strlen`: the number of bytes before the first NUL byte. -/
def strlen : List Nat → Nat
  | [] => 0
  | c :: cs => if c = 0 then 0 else strlen cs + 1

/-- Modelled from the spec: the mutual exclusion that the spinlock gives the
serial port.  Starting with the lock held or free, the calls are followed one
by one; the run is refused when a held lock is obtained, a free lock is
released, or `serial_puts` or `serial_get_rx_data` is called without the lock.
Otherwise the result tells whether the lock is held at the end. -/
def lock_run : Bool → List event → Option Bool
  | held, [] => some held
  | held, .spinlock_obtain :: t => if held then none else lock_run true t
  | held, .spinlock_release :: t => if held then lock_run false t else none
  | held, .serial_puts _ _ :: t => if held then lock_run held t else none
  | held, .serial_get_rx_data _ :: t => if held then lock_run held t else none
  | held, _ :: t => lock_run held t

/-- Calls made between a state `st` and a later state `st'`. -/
def emitted (st st' : console_state) : List event := st'.trace.drop st.trace.length

/-- Bytes sent to the console's serial port between `st` and a later `st'`. -/
def sent (st st' : console_state) : List Nat :=
  serial_output st.serial_handle (emitted st st')

/-! ## guest.h -/

/-- Reduction of a natural number to `unsigned int` (the type of a `U` constant). -/
def to_uint32 (x : Nat) : Nat := x % 4294967296

/-- `IDX_TSC_DEADLINE`. -/
def IDX_TSC_DEADLINE : Nat := 0

/-- `IDX_BIOS_UPDT_TRIG`. -/
def IDX_BIOS_UPDT_TRIG : Nat := to_uint32 (IDX_TSC_DEADLINE + 1)

/-- `IDX_BIOS_SIGN_ID`. -/
def IDX_BIOS_SIGN_ID : Nat := to_uint32 (IDX_BIOS_UPDT_TRIG + 1)

/-- `IDX_TSC`. -/
def IDX_TSC : Nat := to_uint32 (IDX_BIOS_SIGN_ID + 1)

/-- `IDX_PAT`. -/
def IDX_PAT : Nat := to_uint32 (IDX_TSC + 1)

/-- `IDX_MAX_MSR`. -/
def IDX_MAX_MSR : Nat := to_uint32 (IDX_PAT + 1)

/-- `ACRN_REQUEST_EXCP`. -/
def ACRN_REQUEST_EXCP : Nat := 0

/-- `ACRN_REQUEST_EVENT`. -/
def ACRN_REQUEST_EVENT : Nat := 1

/-- `ACRN_REQUEST_EXTINT`. -/
def ACRN_REQUEST_EXTINT : Nat := 2

/-- `ACRN_REQUEST_NMI`. -/
def ACRN_REQUEST_NMI : Nat := 3

/-- `ACRN_REQUEST_TMR_UPDATE`. -/
def ACRN_REQUEST_TMR_UPDATE : Nat := 4

/-- `ACRN_REQUEST_EPT_FLUSH`. -/
def ACRN_REQUEST_EPT_FLUSH : Nat := 5

/-- `ACRN_REQUEST_TRP_FAULT`. -/
def ACRN_REQUEST_TRP_FAULT : Nat := 6

/-- `ACRN_REQUEST_VPID_FLUSH`. -/
def ACRN_REQUEST_VPID_FLUSH : Nat := 7

/-- The eight request kinds, in the order in which the header lists them. -/
def request_kinds : List Nat :=
  [ACRN_REQUEST_EXCP, ACRN_REQUEST_EVENT, ACRN_REQUEST_EXTINT, ACRN_REQUEST_NMI,
   ACRN_REQUEST_TMR_UPDATE, ACRN_REQUEST_EPT_FLUSH, ACRN_REQUEST_TRP_FAULT,
   ACRN_REQUEST_VPID_FLUSH]

/-- The emulated-MSR indices, in the order in which the header lists them. -/
def msr_indices : List Nat :=
  [IDX_TSC_DEADLINE, IDX_BIOS_UPDT_TRIG, IDX_BIOS_SIGN_ID, IDX_TSC, IDX_PAT]

/-- Modelled from the spec: the mask `1 << kind` of a request kind in the
64-bit pending-request bitmap of a vCPU; the bit operations are not in guest.h. -/
def request_mask (kind : Nat) : Nat := (1 <<< kind) % 18446744073709551616

/-- Modelled from the spec: setting the bit of a request kind, `bitmap | mask`. -/
def set_request (bitmap kind : Nat) : Nat := bitmap ||| request_mask kind

/-- Modelled from the spec: clearing the bit of a request kind,
`bitmap & ~mask` on 64 bits. -/
def clear_request (bitmap kind : Nat) : Nat :=
  bitmap &&& (18446744073709551615 ^^^ request_mask kind)

/-- Modelled from the spec: whether the bit of a request kind is set. -/
def test_request (bitmap kind : Nat) : Bool := bitmap.testBit kind

/-- Modelled from the spec: the part of `struct vm` that `foreach_vcpu` uses,
the structure itself being declared outside guest.h.  `vcpu_array i` is the
pointer that the memory holds at `vm->hw.vcpu_array[i]`, also for `i` past the
end of the array, with 0 for a null pointer; `vcpu_array_len` is the number of
slots of the array. -/
structure vm where
  num_vcpus : Nat
  vcpu_array_len : Nat
  vcpu_array : Nat → Nat

/-- Variables of one run of `foreach_vcpu`: the index `idx`, the pointer
`vcpu`, the indices at which `vcpu_array` has been read so far, and whatever
the loop body keeps. -/
structure foreach_state (β : Type) where
  idx : Nat
  vcpu : Nat
  reads : List Nat
  acc : β

/-- The init clause of `foreach_vcpu`: `idx = 0U, vcpu = vm->hw.vcpu_array[idx]`. -/
def foreach_init {β : Type} (v : vm) (acc : β) : foreach_state β :=
  { idx := 0, vcpu := v.vcpu_array 0, reads := [0], acc := acc }

/-- The loop of `foreach_vcpu`: test `idx < vm->hw.num_vcpus`, the body under
`if (vcpu)`, then `idx++, vcpu = vm->hw.vcpu_array[idx]`.  The result is the
state in which the test fails. -/
def foreach_vcpu_loop {β : Type} (v : vm) (body : Nat → Nat → β → β) :
    Nat → foreach_state β → Option (foreach_state β)
  | 0, _ => none
  | fuel + 1, st =>
    if st.idx < v.num_vcpus then
      let acc := if st.vcpu ≠ 0 then body st.idx st.vcpu st.acc else st.acc
      foreach_vcpu_loop v body fuel
        { idx := st.idx + 1, vcpu := v.vcpu_array (st.idx + 1),
          reads := st.reads ++ [st.idx + 1], acc := acc }
    else some st

/-- `foreach_vcpu(idx, vm, vcpu) body`: one test more than `num_vcpus` ends the
loop. -/
def foreach_vcpu {β : Type} (v : vm) (body : Nat → Nat → β → β) (acc : β) :
    Option (foreach_state β) :=
  foreach_vcpu_loop v body (v.num_vcpus + 1) (foreach_init v acc)

/-- A loop body that writes down the index and the pointer it is run with. -/
def record_visit (idx vcpu : Nat) (acc : List (Nat × Nat)) : List (Nat × Nat) :=
  acc ++ [(idx, vcpu)]

/-- The slots that `foreach_vcpu` is to visit: the indices below `num_vcpus`
with a non-null pointer, in increasing order, each with its pointer. -/
def live_slots (v : vm) : List (Nat × Nat) :=
  ((List.range v.num_vcpus).filter (fun i => v.vcpu_array i ≠ 0)).map
    (fun i => (i, v.vcpu_array i))

/-! ## Arithmetic and list facts -/

theorem to_int_of_fits (x : Int) (h0 : 0 ≤ x) (h1 : x ≤ INT_MAX) : to_int x = x := by
  unfold to_int; unfold INT_MAX at h1; omega

theorem serial_output_append (h : Nat) (a b : List event) :
    serial_output h (a ++ b) = serial_output h a ++ serial_output h b := by
  induction a with
  | nil => rfl
  | cons e t ih =>
    cases e <;> simp [serial_output, ih]
    split <;> simp

theorem crlf_append (a b : List Nat) : crlf (a ++ b) = crlf a ++ crlf b := by
  induction a with
  | nil => rfl
  | cons c t ih =>
    by_cases hc : c = 10 <;> simp [crlf, hc, ih]

theorem crlf_of_no_lf (l : List Nat) (h : 10 ∉ l) : crlf l = l := by
  induction l with
  | nil => rfl
  | cons c t ih =>
    simp only [List.mem_cons, not_or] at h
    have hc : c ≠ 10 := fun e => h.1 e.symm
    simp [crlf, hc, ih h.2]

theorem crlf_length (l : List Nat) : (crlf l).length = l.length + l.count 10 := by
  induction l with
  | nil => rfl
  | cons c t ih =>
    by_cases hc : c = 10
    · subst hc; simp [crlf, ih]; omega
    · simp [crlf, hc, ih, List.count_cons]; omega

theorem slice_self (buf : List Nat) (a : Nat) : slice buf a a = [] := by
  simp [slice]

theorem slice_zero (buf : List Nat) (n : Nat) : slice buf 0 n = buf.take n := by
  simp [slice]

theorem slice_split (buf : List Nat) (a q b : Nat) (h1 : a ≤ q) (h2 : q ≤ b) :
    slice buf a b = slice buf a q ++ slice buf q b := by
  unfold slice
  have hb : b - a = (q - a) + (b - q) := by omega
  have hq : q = a + (q - a) := by omega
  rw [hb, List.take_add, List.drop_drop]
  congr 3
  omega

theorem slice_cons (buf : List Nat) (q b c : Nat) (hc : buf[q]? = some c) (h : q < b) :
    slice buf q b = c :: slice buf (q + 1) b := by
  unfold slice
  obtain ⟨hq, hcq⟩ := List.getElem?_eq_some_iff.mp hc
  have hb : b - q = (b - (q + 1)) + 1 := by omega
  rw [hb, List.drop_eq_getElem_cons hq, List.take_succ_cons, hcq]

/-! ## The loops of `console_write` -/

theorem print_char_lf (st : console_state) :
    print_char st 10 = { st with trace := st.trace ++
      [.serial_puts st.serial_handle [10], .serial_puts st.serial_handle [13]] } := by
  simp [print_char, call]

theorem write_scan_spec (buf : List Nat) (e : Nat) (he : e ≤ buf.length) :
    ∀ fuel p, p ≤ e → e - p < fuel →
      ∃ q, write_scan buf e fuel p = some q ∧ p ≤ q ∧ q ≤ e ∧ 10 ∉ slice buf p q ∧
        (q ≠ e → buf[q]? = some 10) := by
  intro fuel
  induction fuel with
  | zero => intro p _ h; omega
  | succ f ih =>
    intro p hp hf
    unfold write_scan
    by_cases hpe : p = e
    · exact ⟨p, by simp [hpe], le_refl _, hp, by simp [slice_self], fun h => absurd hpe h⟩
    · have hlt : p < buf.length := by omega
      have hget : buf[p]? = some buf[p] := List.getElem?_eq_getElem hlt
      by_cases hc : buf[p] = 10
      · refine ⟨p, ?_, le_refl _, hp, by simp [slice_self], fun _ => ?_⟩
        · simp [hpe, hget, hc]
        · rw [hget, hc]
      · obtain ⟨q, hq, h1, h2, h3, h4⟩ := ih (p + 1) (by omega) (by omega)
        refine ⟨q, ?_, by omega, h2, ?_, h4⟩
        · simp [hpe, hget, hc, hq]
        · rw [slice_cons buf p q _ hget (by omega)]
          simp only [List.mem_cons, not_or]
          exact ⟨fun h => hc h.symm, h3⟩

theorem to_int_idem (x : Int) : to_int (to_int x) = to_int x := by
  unfold to_int; omega

theorem write_loop_spec (buf : List Nat) (e : Nat) (he : e ≤ buf.length) :
    ∀ fuel s res st, s ≤ e → e - s < fuel → to_int res = res →
      ∃ T, write_loop buf e fuel s res st =
          some (to_int (res + ((e - s : Nat) : Int) + (((slice buf s e).count 10 : Nat) : Int)),
            { st with trace := st.trace ++ T }) ∧
        serial_output st.serial_handle T = crlf (slice buf s e) ∧
        ∀ ev ∈ T, ∃ d, ev = event.serial_puts st.serial_handle d := by
  intro fuel
  induction fuel with
  | zero => intro s _ _ _ h; omega
  | succ f ih =>
    intro s res st hs hf hres
    unfold write_loop
    by_cases hse : s = e
    · subst hse
      refine ⟨[], ?_, by simp [slice_self, serial_output, crlf], by simp⟩
      simp [slice_self, hres]
    · obtain ⟨q, hq, h1, h2, h3, h4⟩ :=
        write_scan_spec buf e he (buf.length + 1) s hs (by omega)
      have hcnt : (slice buf s q).count 10 = 0 := List.count_eq_zero.mpr h3
      simp only [hse, ne_eq, not_false_eq_true, if_true, hq]
      by_cases hqe : q = e
      · subst hqe
        obtain ⟨T, hT, hout, hev⟩ := ih q (to_int (res + ((q - s : Nat) : Int)))
          (call st (.serial_puts st.serial_handle (slice buf s q))) (le_refl _) (by omega)
          (to_int_idem _)
        refine ⟨.serial_puts st.serial_handle (slice buf s q) :: T, ?_, ?_, ?_⟩
        · simp only [ne_eq, not_true_eq_false, if_false, hT]
          simp [call, slice_self, hcnt, to_int_idem]
        · simp only [call] at hout
          simp [serial_output, hout, slice_self, crlf, crlf_of_no_lf _ h3]
        · intro ev hmem
          rcases List.mem_cons.mp hmem with h | h
          · exact ⟨_, h⟩
          · exact hev ev h
      · have hq10 := h4 hqe
        have hsl : slice buf s e = slice buf s q ++ 10 :: slice buf (q + 1) e := by
          rw [slice_split buf s q e h1 h2, slice_cons buf q e 10 hq10 (by omega)]
        obtain ⟨T, hT, hout, hev⟩ := ih (q + 1)
          (to_int (to_int (res + ((q - s : Nat) : Int)) + 2))
          (print_char (call st (.serial_puts st.serial_handle (slice buf s q))) 10)
          (by omega) (by omega) (to_int_idem _)
        refine ⟨.serial_puts st.serial_handle (slice buf s q) ::
          .serial_puts st.serial_handle [10] :: .serial_puts st.serial_handle [13] :: T,
          ?_, ?_, ?_⟩
        · simp only [ne_eq, hqe, not_false_eq_true, if_true, hT]
          simp only [print_char_lf, call, hsl, List.count_append, List.count_cons_self, hcnt]
          simp only [List.append_assoc, List.cons_append, List.nil_append, id_eq, Option.some.injEq,
            Prod.mk.injEq, and_true]
          unfold to_int
          omega
        · simp only [print_char_lf, call] at hout
          simp [serial_output, hout, hsl, crlf_append, crlf, crlf_of_no_lf _ h3]
        · simp only [print_char_lf, call] at hev
          intro ev hmem
          simp only [List.mem_cons] at hmem
          rcases hmem with h | h | h | h
          · exact ⟨_, h⟩
          · exact ⟨_, h⟩
          · exact ⟨_, h⟩
          · exact hev ev h

/-- What `console_write` does on a buffer that holds at least `len` bytes, for
either state of the handle. -/
theorem console_write_shape (pf : platform) (st : console_state) (buf : List Nat) (len : Nat)
    (hbuf : len ≤ buf.length) :
    ∃ r M, console_write pf st buf len = some (r, { st with trace :=
          st.trace ++ event.spinlock_obtain :: M ++ [event.spinlock_release] }) ∧
      (∀ ev ∈ M, ∃ d, ev = event.serial_puts st.serial_handle d) ∧
      (st.serial_handle ≠ pf.SERIAL_INVALID_HANDLE →
        r = to_int ((len : Int) + (((buf.take len).count 10 : Nat) : Int)) ∧
        serial_output st.serial_handle M = crlf (buf.take len)) ∧
      (st.serial_handle = pf.SERIAL_INVALID_HANDLE → r = -1 ∧ M = []) ∧
      (len = 0 → M = []) := by
  by_cases hv : st.serial_handle = pf.SERIAL_INVALID_HANDLE
  · refine ⟨-1, [], ?_, by simp, fun h => absurd hv h, fun _ => ⟨rfl, rfl⟩, fun _ => rfl⟩
    simp [console_write, call, hv]
  · by_cases h0 : len = 0
    · subst h0
      refine ⟨0, [], ?_, by simp, fun _ => ⟨by simp [to_int], by simp [serial_output, crlf]⟩,
        fun h => absurd h hv, fun _ => rfl⟩
      simp [console_write, call, hv, write_loop]
    · obtain ⟨T, hT, hout, hev⟩ := write_loop_spec buf len hbuf (buf.length + 1) 0 0
        (call st .spinlock_obtain) (Nat.zero_le _) (by omega) (by simp [to_int])
      simp only [call] at hT hout hev
      refine ⟨_, T, ?_, hev, fun _ => ⟨rfl, ?_⟩, fun h => absurd h hv, fun h => absurd h h0⟩
      · simp only [console_write, call, ne_eq, hv, not_false_eq_true, if_true, Nat.zero_add, hT]
        simp [slice_zero]
      · rw [hout, slice_zero]

/-! ## `console_puts` against `console_write` -/

theorem strlen_split (buf : List Nat) (h : 0 ∈ buf) :
    ∃ rest, buf = buf.take (strlen buf) ++ 0 :: rest ∧ 0 ∉ buf.take (strlen buf) ∧
      strlen buf < buf.length := by
  induction buf with
  | nil => simp at h
  | cons c t ih =>
    by_cases hc : c = 0
    · subst hc
      exact ⟨t, by simp [strlen], by simp [strlen], by simp [strlen]⟩
    · have ht : 0 ∈ t := by
        rcases List.mem_cons.mp h with h | h
        · exact absurd h.symm hc
        · exact h
      obtain ⟨rest, h1, h2, h3⟩ := ih ht
      refine ⟨rest, ?_, ?_, ?_⟩
      · simp only [strlen, hc, if_false, List.take_succ_cons, List.cons_append]
        rw [← h1]
      · simp only [strlen, hc, if_false, List.take_succ_cons, List.mem_cons, not_or]
        exact ⟨fun e => hc e.symm, h2⟩
      · simp only [strlen, hc, if_false, List.length_cons]
        omega

theorem strlen_reads (buf : List Nat) (h : 0 ∈ buf) :
    buf[strlen buf]? = some 0 ∧ ∀ i, i < strlen buf → ∃ c, buf[i]? = some c ∧ c ≠ 0 := by
  induction buf with
  | nil => simp at h
  | cons c t ih =>
    by_cases hc : c = 0
    · subst hc
      simp [strlen]
    · have ht : 0 ∈ t := by
        rcases List.mem_cons.mp h with h | h
        · exact absurd h.symm hc
        · exact h
      obtain ⟨h1, h2⟩ := ih ht
      simp only [strlen, hc, if_false]
      refine ⟨by simpa using h1, fun i hi => ?_⟩
      cases i with
      | zero => exact ⟨c, by simp, hc⟩
      | succ j => simpa using h2 j (by omega)

theorem puts_scan_eq (buf : List Nat) (e : Nat) (h0 : buf[e]? = some 0)
    (hb : ∀ i, i < e → ∃ c, buf[i]? = some c ∧ c ≠ 0) :
    ∀ fuel p, p ≤ e → puts_scan buf fuel p = write_scan buf e fuel p := by
  intro fuel
  induction fuel with
  | zero => intro p _; rfl
  | succ f ih =>
    intro p hp
    unfold puts_scan write_scan
    by_cases hpe : p = e
    · subst hpe
      simp [h0]
    · obtain ⟨c, hc, hc0⟩ := hb p (by omega)
      simp only [hc, ne_eq, hc0, not_false_eq_true, true_and, hpe, if_true]
      by_cases h10 : c = 10
      · simp [h10]
      · simp [h10, ih (p + 1) (by omega)]

theorem puts_loop_eq (buf : List Nat) (e : Nat) (h0 : buf[e]? = some 0)
    (hb : ∀ i, i < e → ∃ c, buf[i]? = some c ∧ c ≠ 0) :
    ∀ fuel s res st, s ≤ e →
      puts_loop buf fuel s res st = write_loop buf e fuel s res st := by
  have he : e < buf.length := (List.getElem?_eq_some_iff.mp h0).1
  intro fuel
  induction fuel with
  | zero => intro s res st _; rfl
  | succ f ih =>
    intro s res st hs
    unfold puts_loop write_loop
    by_cases hse : s = e
    · subst hse
      simp [h0]
    · obtain ⟨c, hc, hc0⟩ := hb s (by omega)
      obtain ⟨q, hq, h1, h2, _, h4⟩ :=
        write_scan_spec buf e (by omega) (buf.length + 1) s hs (by omega)
      simp only [hc, ne_eq, hc0, not_false_eq_true, if_true, hse,
        puts_scan_eq buf e h0 hb (buf.length + 1) s hs, hq]
      by_cases hqe : q = e
      · subst hqe
        simp [h0, ih q _ _ (le_refl _)]
      · simp [h4 hqe, hqe, ih (q + 1) _ _ (by omega)]

theorem console_puts_eq_write (pf : platform) (st : console_state) (s : List Nat)
    (h : 0 ∈ s) : console_puts pf st s = console_write pf st s (strlen s) := by
  obtain ⟨h0, hb⟩ := strlen_reads s h
  simp only [console_puts, console_write, Nat.zero_add,
    puts_loop_eq s (strlen s) h0 hb (s.length + 1) 0 0 _ (Nat.zero_le _)]

/-! ## What the loops do whenever they return -/

theorem slice_ne_nil (buf : List Nat) (a b : Nat) (h1 : a < b) (h2 : a < buf.length) :
    slice buf a b ≠ [] := by
  intro h
  have hl : (slice buf a b).length = 0 := by rw [h]; rfl
  simp only [slice, List.length_take, List.length_drop] at hl
  omega

theorem write_scan_some (buf : List Nat) (e : Nat) :
    ∀ fuel p q, write_scan buf e fuel p = some q → p ≤ q ∧ (p < q → p < buf.length) := by
  intro fuel
  induction fuel with
  | zero => intro p q h; simp [write_scan] at h
  | succ f ih =>
    intro p q h
    unfold write_scan at h
    by_cases hpe : p = e
    · simp only [hpe, ne_eq, not_true_eq_false, if_false, Option.some.injEq] at h
      omega
    · simp only [ne_eq, hpe, not_false_eq_true, if_true] at h
      cases hc : buf[p]? with
      | none => simp [hc] at h
      | some c =>
        have hlt : p < buf.length := (List.getElem?_eq_some_iff.mp hc).1
        simp only [hc] at h
        by_cases h10 : c = 10
        · simp only [h10, ne_eq, not_true_eq_false, if_false, Option.some.injEq] at h
          omega
        · simp only [ne_eq, h10, not_false_eq_true, if_true] at h
          have := (ih _ _ h).1
          exact ⟨by omega, fun _ => hlt⟩

theorem puts_scan_some (buf : List Nat) :
    ∀ fuel p q, puts_scan buf fuel p = some q →
      p ≤ q ∧ (q = p → ∀ c, buf[p]? = some c → c = 0 ∨ c = 10) := by
  intro fuel
  induction fuel with
  | zero => intro p q h; simp [puts_scan] at h
  | succ f ih =>
    intro p q h
    unfold puts_scan at h
    cases hc : buf[p]? with
    | none => simp [hc] at h
    | some c =>
      simp only [hc] at h
      by_cases hgo : c ≠ 0 ∧ c ≠ 10
      · rw [if_pos hgo] at h
        have := (ih _ _ h).1
        exact ⟨by omega, fun hqp => by omega⟩
      · rw [if_neg hgo] at h
        simp only [Option.some.injEq] at h
        refine ⟨by omega, fun _ c' hc' => ?_⟩
        simp only [Option.some.injEq] at hc'
        subst hc'
        by_cases h0 : c = 0
        · exact Or.inl h0
        · by_cases h10 : c = 10
          · exact Or.inr h10
          · exact absurd ⟨h0, h10⟩ hgo

theorem write_loop_some (buf : List Nat) (e : Nat) :
    ∀ fuel s res st r st', write_loop buf e fuel s res st = some (r, st') →
      ∃ T, st' = { st with trace := st.trace ++ T } ∧
        (∀ ev ∈ T, ∃ d, ev = event.serial_puts st.serial_handle d) ∧
        (serial_output st.serial_handle T = [] → r = res) := by
  intro fuel
  induction fuel with
  | zero => intro s res st r st' h; simp [write_loop] at h
  | succ f ih =>
    intro s res st r st' h
    unfold write_loop at h
    by_cases hse : s = e
    · simp only [hse, ne_eq, not_true_eq_false, if_false, Option.some.injEq,
        Prod.mk.injEq] at h
      obtain ⟨h1, h2⟩ := h
      subst h1 h2
      exact ⟨[], by simp, by simp, fun _ => rfl⟩
    · simp only [ne_eq, hse, not_false_eq_true, if_true] at h
      cases hq : write_scan buf e (buf.length + 1) s with
      | none => simp [hq] at h
      | some q =>
        simp only [hq] at h
        obtain ⟨hle, hlt⟩ := write_scan_some buf e _ s q hq
        by_cases hqe : q = e
        · simp only [hqe, ne_eq, not_true_eq_false, if_false] at h
          obtain ⟨T, hT, hev, _⟩ := ih _ _ _ _ _ h
          simp only [call] at hT hev
          refine ⟨event.serial_puts st.serial_handle (slice buf s e) :: T, ?_, ?_, ?_⟩
          · rw [hT]; simp [hqe]
          · intro ev hmem
            rcases List.mem_cons.mp hmem with h1 | h1
            · exact ⟨_, h1⟩
            · exact hev ev h1
          · intro hout
            exfalso
            simp only [serial_output, if_true, List.append_eq_nil] at hout
            exact slice_ne_nil buf s e (by omega) (hlt (by omega)) hout.1
        · simp only [ne_eq, hqe, not_false_eq_true, if_true] at h
          obtain ⟨T, hT, hev, _⟩ := ih _ _ _ _ _ h
          simp only [print_char_lf, call] at hT hev
          refine ⟨event.serial_puts st.serial_handle (slice buf s q) ::
            event.serial_puts st.serial_handle [10] ::
            event.serial_puts st.serial_handle [13] :: T, ?_, ?_, ?_⟩
          · rw [hT]; simp
          · intro ev hmem
            simp only [List.mem_cons] at hmem
            rcases hmem with h1 | h1 | h1 | h1
            · exact ⟨_, h1⟩
            · exact ⟨_, h1⟩
            · exact ⟨_, h1⟩
            · exact hev ev h1
          · intro hout
            exfalso
            simp [serial_output] at hout

theorem puts_loop_some (buf : List Nat) :
    ∀ fuel s res st r st', puts_loop buf fuel s res st = some (r, st') →
      ∃ T, st' = { st with trace := st.trace ++ T } ∧
        (∀ ev ∈ T, ∃ d, ev = event.serial_puts st.serial_handle d) ∧
        (serial_output st.serial_handle T = [] → r = res) := by
  intro fuel
  induction fuel with
  | zero => intro s res st r st' h; simp [puts_loop] at h
  | succ f ih =>
    intro s res st r st' h
    unfold puts_loop at h
    cases hc : buf[s]? with
    | none => simp [hc] at h
    | some c =>
      have hslt : s < buf.length := (List.getElem?_eq_some_iff.mp hc).1
      simp only [hc] at h
      by_cases hc0 : c = 0
      · simp only [hc0, ne_eq, not_true_eq_false, if_false, Option.some.injEq,
          Prod.mk.injEq] at h
        obtain ⟨h1, h2⟩ := h
        subst h1 h2
        exact ⟨[], by simp, by simp, fun _ => rfl⟩
      · simp only [ne_eq, hc0, not_false_eq_true, if_true] at h
        cases hq : puts_scan buf (buf.length + 1) s with
        | none => simp [hq] at h
        | some q =>
          simp only [hq] at h
          obtain ⟨hle, hstop⟩ := puts_scan_some buf _ s q hq
          cases hd : buf[q]? with
          | none => simp [hd] at h
          | some d =>
            simp only [hd] at h
            by_cases hd10 : d = 10
            · simp only [hd10, if_true] at h
              obtain ⟨T, hT, hev, _⟩ := ih _ _ _ _ _ h
              simp only [print_char_lf, call] at hT hev
              refine ⟨event.serial_puts st.serial_handle (slice buf s q) ::
                event.serial_puts st.serial_handle [10] ::
                event.serial_puts st.serial_handle [13] :: T, ?_, ?_, ?_⟩
              · rw [hT]; simp
              · intro ev hmem
                simp only [List.mem_cons] at hmem
                rcases hmem with h1 | h1 | h1 | h1
                · exact ⟨_, h1⟩
                · exact ⟨_, h1⟩
                · exact ⟨_, h1⟩
                · exact hev ev h1
              · intro hout
                exfalso
                simp [serial_output] at hout
            · simp only [hd10, if_false] at h
              obtain ⟨T, hT, hev, _⟩ := ih _ _ _ _ _ h
              simp only [call] at hT hev
              have hsq : s ≠ q := by
                intro hsq
                subst hsq
                rw [hc] at hd
                simp only [Option.some.injEq] at hd
                subst hd
                rcases hstop rfl c hc with h1 | h1
                · exact hc0 h1
                · exact hd10 h1
              refine ⟨event.serial_puts st.serial_handle (slice buf s q) :: T, ?_, ?_, ?_⟩
              · rw [hT]; simp
              · intro ev hmem
                rcases List.mem_cons.mp hmem with h1 | h1
                · exact ⟨_, h1⟩
                · exact hev ev h1
              · intro hout
                exfalso
                simp only [serial_output, if_true, List.append_eq_nil] at hout
                exact slice_ne_nil buf s q (by omega) hslt hout.1

/-! ## Frames of calls under the lock -/

theorem serial_output_frame (h : Nat) (M : List event) :
    serial_output h (event.spinlock_obtain :: M ++ [event.spinlock_release]) =
      serial_output h M := by
  have h1 : event.spinlock_obtain :: M ++ [event.spinlock_release] =
      [event.spinlock_obtain] ++ M ++ [event.spinlock_release] := by simp
  rw [h1, serial_output_append, serial_output_append]
  simp [serial_output]

theorem lock_run_held (h : Nat) (M : List event)
    (hM : ∀ ev ∈ M, (∃ d, ev = event.serial_puts h d) ∨ ev = event.serial_get_rx_data h) :
    lock_run true (M ++ [event.spinlock_release]) = some false := by
  induction M with
  | nil => simp [lock_run]
  | cons e t ih =>
    have ht := ih (fun ev hev => hM ev (List.mem_cons_of_mem _ hev))
    rcases hM e (List.mem_cons_self _ _) with ⟨d, hd⟩ | hd
    · subst hd; simpa [lock_run] using ht
    · subst hd; simpa [lock_run] using ht

theorem count_frame (h : Nat) (M : List event) (x : event)
    (hM : ∀ ev ∈ M, (∃ d, ev = event.serial_puts h d) ∨ ev = event.serial_get_rx_data h)
    (hx : x = event.spinlock_obtain ∨ x = event.spinlock_release) :
    M.count x = 0 := by
  apply List.count_eq_zero.mpr
  intro hmem
  rcases hM x hmem with ⟨d, hd⟩ | hd <;> rcases hx with hx | hx <;> rw [hx] at hd <;> cases hd

theorem lock_frame (h : Nat) (M : List event)
    (hM : ∀ ev ∈ M, (∃ d, ev = event.serial_puts h d) ∨ ev = event.serial_get_rx_data h) :
    lock_run false (event.spinlock_obtain :: M ++ [event.spinlock_release]) = some false ∧
      (event.spinlock_obtain :: M ++ [event.spinlock_release]).count event.spinlock_obtain = 1 ∧
      (event.spinlock_obtain :: M ++ [event.spinlock_release]).count event.spinlock_release = 1 := by
  refine ⟨?_, ?_, ?_⟩
  · simpa [lock_run] using lock_run_held h M hM
  · simp [List.count_cons, List.count_append, count_frame h M _ hM (Or.inl rfl)]
  · simp [List.count_cons, List.count_append, count_frame h M _ hM (Or.inr rfl)]

/-- What `console_putc` does, for either state of the handle. -/
theorem console_putc_shape (pf : platform) (st : console_state) (ch : Int) :
    ∃ r M, console_putc pf st ch = (r, { st with trace :=
          st.trace ++ event.spinlock_obtain :: M ++ [event.spinlock_release] }) ∧
      (∀ ev ∈ M, ∃ d, ev = event.serial_puts st.serial_handle d) ∧
      (st.serial_handle ≠ pf.SERIAL_INVALID_HANDLE → r = 0 ∧
        M = event.serial_puts st.serial_handle [to_char ch] ::
          (if to_char ch = 10 then [event.serial_puts st.serial_handle [13]] else [])) ∧
      (st.serial_handle = pf.SERIAL_INVALID_HANDLE → r = -1 ∧ M = []) := by
  by_cases hv : st.serial_handle = pf.SERIAL_INVALID_HANDLE
  · refine ⟨-1, [], ?_, by simp, fun h => absurd hv h, fun _ => ⟨rfl, rfl⟩⟩
    simp [console_putc, call, hv]
  · by_cases hc : to_char ch = 10
    · refine ⟨0, _, ?_, ?_, fun _ => ⟨rfl, rfl⟩, fun h => absurd h hv⟩
      · simp [console_putc, call, print_char, hv, hc]
      · simp [hc]
    · refine ⟨0, _, ?_, ?_, fun _ => ⟨rfl, rfl⟩, fun h => absurd h hv⟩
      · simp [console_putc, call, print_char, hv, hc]
      · simp [hc]

/-- What `console_puts` does on a buffer that holds a NUL byte, for either
state of the handle. -/
theorem console_puts_shape (pf : platform) (st : console_state) (s : List Nat) (h : 0 ∈ s) :
    ∃ r M, console_puts pf st s = some (r, { st with trace :=
          st.trace ++ event.spinlock_obtain :: M ++ [event.spinlock_release] }) ∧
      (∀ ev ∈ M, ∃ d, ev = event.serial_puts st.serial_handle d) ∧
      (st.serial_handle ≠ pf.SERIAL_INVALID_HANDLE →
        r = to_int ((strlen s : Int) + (((s.take (strlen s)).count 10 : Nat) : Int)) ∧
        serial_output st.serial_handle M = crlf (s.take (strlen s))) ∧
      (st.serial_handle = pf.SERIAL_INVALID_HANDLE → r = -1 ∧ M = []) ∧
      (strlen s = 0 → M = []) := by
  rw [console_puts_eq_write pf st s h]
  obtain ⟨_, _, hlt⟩ := strlen_split s h
  exact console_write_shape pf st s (strlen s) (by omega)

theorem sent_frame (st : console_state) (M : List event) :
    sent st { st with trace :=
        st.trace ++ event.spinlock_obtain :: M ++ [event.spinlock_release] } =
      serial_output st.serial_handle M := by
  have h := serial_output_frame st.serial_handle M
  simp only [sent, emitted, List.append_assoc, List.drop_left]
  simpa using h

theorem silent_iff_invalid (pf : platform) (st : console_state) (r : Int) (M : List event)
    (l : List Nat) (n : Nat) (hn : l.length = n)
    (hv : st.serial_handle ≠ pf.SERIAL_INVALID_HANDLE →
      r = to_int ((n : Int) + ((l.count 10 : Nat) : Int)) ∧
      serial_output st.serial_handle M = crlf l)
    (hi : st.serial_handle = pf.SERIAL_INVALID_HANDLE → r = -1 ∧ M = []) :
    ((r = -1 ∧ sent st { st with trace :=
          st.trace ++ event.spinlock_obtain :: M ++ [event.spinlock_release] } = []) ↔
        st.serial_handle = pf.SERIAL_INVALID_HANDLE) ∧
      (st.serial_handle ≠ pf.SERIAL_INVALID_HANDLE →
        (n : Int) + ((l.count 10 : Nat) : Int) ≤ INT_MAX → 0 ≤ r) := by
  rw [sent_frame]
  by_cases hh : st.serial_handle = pf.SERIAL_INVALID_HANDLE
  · obtain ⟨hr, hM⟩ := hi hh
    subst hr hM
    exact ⟨⟨fun _ => hh, fun _ => ⟨rfl, rfl⟩⟩, fun h => absurd hh h⟩
  · obtain ⟨hr, hout⟩ := hv hh
    refine ⟨⟨fun ⟨h1, h2⟩ => ?_, fun h => absurd h hh⟩, fun _ hfit => ?_⟩
    · exfalso
      rw [hout] at h2
      have hlen := crlf_length l
      rw [h2] at hlen
      simp only [List.length_nil] at hlen
      have hl0 : l.length = 0 := by omega
      have hc0 : l.count 10 = 0 := by omega
      rw [← hn, hl0, hc0] at hr
      rw [hr] at h1
      simp [to_int] at h1
    · rw [hr, to_int_of_fits _ (by omega) hfit]
      omega

theorem console_write_invalid (pf : platform) (st : console_state) (buf : List Nat)
    (len : Nat) (h : st.serial_handle = pf.SERIAL_INVALID_HANDLE) :
    console_write pf st buf len = some (-1, { st with trace :=
      st.trace ++ event.spinlock_obtain :: [] ++ [event.spinlock_release] }) := by
  simp [console_write, call, h]

theorem console_puts_invalid (pf : platform) (st : console_state) (s : List Nat)
    (h : st.serial_handle = pf.SERIAL_INVALID_HANDLE) :
    console_puts pf st s = some (-1, { st with trace :=
      st.trace ++ event.spinlock_obtain :: [] ++ [event.spinlock_release] }) := by
  simp [console_puts, call, h]

/-- What `console_write` has done whenever it returns. -/
theorem console_write_some (pf : platform) (st : console_state) (buf : List Nat) (len : Nat)
    (r : Int) (st' : console_state) (h : console_write pf st buf len = some (r, st')) :
    ∃ M, st' = { st with trace :=
          st.trace ++ event.spinlock_obtain :: M ++ [event.spinlock_release] } ∧
      (∀ ev ∈ M, ∃ d, ev = event.serial_puts st.serial_handle d) ∧
      (st.serial_handle ≠ pf.SERIAL_INVALID_HANDLE →
        serial_output st.serial_handle M = [] → r = 0) := by
  by_cases hv : st.serial_handle = pf.SERIAL_INVALID_HANDLE
  · rw [console_write_invalid pf st buf len hv] at h
    simp only [Option.some.injEq, Prod.mk.injEq] at h
    exact ⟨[], h.2.symm, by simp, fun hh => absurd hv hh⟩
  · unfold console_write at h
    simp only [call, ne_eq, hv, not_false_eq_true, if_true, Nat.zero_add] at h
    cases hl : write_loop buf len (buf.length + 1) 0 0
        { serial_handle := st.serial_handle, trace := st.trace ++ [event.spinlock_obtain] } with
    | none => simp [hl] at h
    | some x =>
      obtain ⟨r1, st1⟩ := x
      rw [hl] at h
      simp only [Option.some.injEq, Prod.mk.injEq] at h
      obtain ⟨T, hT, hev, hz⟩ := write_loop_some buf _ _ _ _ _ _ _ hl
      refine ⟨T, ?_, hev, fun _ hout => ?_⟩
      · rw [← h.2, hT]; simp
      · rw [← h.1]; exact hz hout

/-- What `console_puts` has done whenever it returns. -/
theorem console_puts_some (pf : platform) (st : console_state) (s : List Nat)
    (r : Int) (st' : console_state) (h : console_puts pf st s = some (r, st')) :
    ∃ M, st' = { st with trace :=
          st.trace ++ event.spinlock_obtain :: M ++ [event.spinlock_release] } ∧
      (∀ ev ∈ M, ∃ d, ev = event.serial_puts st.serial_handle d) ∧
      (st.serial_handle ≠ pf.SERIAL_INVALID_HANDLE →
        serial_output st.serial_handle M = [] → r = 0) := by
  by_cases hv : st.serial_handle = pf.SERIAL_INVALID_HANDLE
  · rw [console_puts_invalid pf st s hv] at h
    simp only [Option.some.injEq, Prod.mk.injEq] at h
    exact ⟨[], h.2.symm, by simp, fun hh => absurd hv hh⟩
  · unfold console_puts at h
    simp only [call, ne_eq, hv, not_false_eq_true, if_true] at h
    cases hl : puts_loop s (s.length + 1) 0 0
        { serial_handle := st.serial_handle, trace := st.trace ++ [event.spinlock_obtain] } with
    | none => simp [hl] at h
    | some x =>
      obtain ⟨r1, st1⟩ := x
      rw [hl] at h
      simp only [Option.some.injEq, Prod.mk.injEq] at h
      obtain ⟨T, hT, hev, hz⟩ := puts_loop_some s _ _ _ _ _ _ hl
      refine ⟨T, ?_, hev, fun _ hout => ?_⟩
      · rw [← h.2, hT]; simp
      · rw [← h.1]; exact hz hout

theorem silent_iff (pf : platform) (st : console_state)
    (f : Option (Int × console_state))
    (hinv : st.serial_handle = pf.SERIAL_INVALID_HANDLE →
      f = some (-1, { st with trace :=
        st.trace ++ event.spinlock_obtain :: [] ++ [event.spinlock_release] }))
    (hsome : ∀ r st', f = some (r, st') → ∃ M, st' = { st with trace :=
          st.trace ++ event.spinlock_obtain :: M ++ [event.spinlock_release] } ∧
      (∀ ev ∈ M, ∃ d, ev = event.serial_puts st.serial_handle d) ∧
      (st.serial_handle ≠ pf.SERIAL_INVALID_HANDLE →
        serial_output st.serial_handle M = [] → r = 0)) :
    (∀ r st', f = some (r, st') → st'.serial_handle = st.serial_handle) ∧
    ((∃ st', f = some (-1, st') ∧ sent st st' = []) ↔
      st.serial_handle = pf.SERIAL_INVALID_HANDLE) := by
  refine ⟨fun r st' h => ?_, ⟨fun ⟨st', h1, h2⟩ => ?_, fun h => ?_⟩⟩
  · obtain ⟨M, hM, _, _⟩ := hsome r st' h
    rw [hM]
  · by_contra hv
    obtain ⟨M, hM, _, hz⟩ := hsome _ st' h1
    rw [hM, sent_frame] at h2
    have := hz hv h2
    omega
  · refine ⟨_, hinv h, ?_⟩
    rw [sent_frame]
    rfl

/-! ## Claims about console.c -/

/-- C1: with a valid serial handle, a buffer that holds at least `len` bytes,
and `len` plus the number of line feeds among these bytes at most `INT_MAX`,
`console_write` returns; between obtaining and releasing the lock it hands to
the console's serial port exactly the first `len` bytes, in order, with a
carriage return inserted after every line feed (a NUL byte is a byte like any
other); the value returned is `len` plus the number of line feeds, which is the
number of bytes sent; for `len = 0` it makes no serial call and returns 0. -/
theorem console_write_sends (pf : platform) (st : console_state) (s : List Nat) (len : Nat)
    (hvalid : st.serial_handle ≠ pf.SERIAL_INVALID_HANDLE)
    (hbuf : len ≤ s.length)
    (hfit : (len : Int) + (((s.take len).count 10 : Nat) : Int) ≤ INT_MAX) :
    ∃ M, console_write pf st s len =
        some ((len : Int) + (((s.take len).count 10 : Nat) : Int),
          { st with trace :=
            st.trace ++ event.spinlock_obtain :: M ++ [event.spinlock_release] }) ∧
      serial_output st.serial_handle M = crlf (s.take len) ∧
      ((serial_output st.serial_handle M).length : Int) =
        (len : Int) + (((s.take len).count 10 : Nat) : Int) ∧
      (len = 0 → M = [] ∧ (len : Int) + (((s.take len).count 10 : Nat) : Int) = 0) := by
  obtain ⟨r, M, hres, _, hv, _, h0⟩ := console_write_shape pf st s len hbuf
  obtain ⟨hr, hout⟩ := hv hvalid
  rw [to_int_of_fits _ (by omega) hfit] at hr
  subst hr
  refine ⟨M, hres, hout, ?_, fun hz => ⟨h0 hz, ?_⟩⟩
  · rw [hout, crlf_length, List.length_take, Nat.min_eq_left hbuf]
    push_cast
    rfl
  · subst hz
    simp

theorem console_write_sends_witness :
    ∃ M, console_write ⟨0, 1000⟩ ⟨1, []⟩ [65, 10, 0, 66] 4 =
        some (5, ⟨1, event.spinlock_obtain :: M ++ [event.spinlock_release]⟩) ∧
      serial_output 1 M = [65, 10, 13, 0, 66] := by
  obtain ⟨M, h1, h2, _, _⟩ := console_write_sends ⟨0, 1000⟩ ⟨1, []⟩ [65, 10, 0, 66] 4
    (by decide) (by decide) (by decide)
  exact ⟨M, h1, h2⟩

/-- C7: with a valid serial handle `console_putc` returns 0 for every `ch`;
under the lock it hands to the serial port one byte, `ch` converted to `char`
(the low eight bits of `ch`), followed by one carriage return exactly when that
byte is a line feed, and nothing else. -/
theorem console_putc_sends (pf : platform) (st : console_state) (ch : Int)
    (hvalid : st.serial_handle ≠ pf.SERIAL_INVALID_HANDLE) :
    console_putc pf st ch = (0, { st with trace := st.trace ++
        event.spinlock_obtain :: (event.serial_puts st.serial_handle [to_char ch] ::
          (if to_char ch = 10 then [event.serial_puts st.serial_handle [13]] else [])) ++
        [event.spinlock_release] }) ∧
      sent st (console_putc pf st ch).2 =
        to_char ch :: (if to_char ch = 10 then [13] else []) ∧
      (to_char ch : Int) = ch % 256 := by
  obtain ⟨r, M, hres, _, hv, _⟩ := console_putc_shape pf st ch
  obtain ⟨hr, hM⟩ := hv hvalid
  subst hr hM
  refine ⟨hres, ?_, ?_⟩
  · rw [hres]
    by_cases hc : to_char ch = 10 <;> simp [sent, emitted, serial_output, hc]
  · unfold to_char
    omega

theorem console_putc_sends_witness :
    console_putc ⟨0, 1000⟩ ⟨1, []⟩ 266 = (0, ⟨1, [event.spinlock_obtain,
        event.serial_puts 1 [10], event.serial_puts 1 [13], event.spinlock_release]⟩) ∧
      sent ⟨1, []⟩ (console_putc ⟨0, 1000⟩ ⟨1, []⟩ 266).2 = [10, 13] :=
  ⟨(console_putc_sends ⟨0, 1000⟩ ⟨1, []⟩ 266 (by decide)).1,
    (console_putc_sends ⟨0, 1000⟩ ⟨1, []⟩ 266 (by decide)).2.1⟩

/-- C2: for every `ch`, every buffer `s` and every buffer `buf` and length
`len`: `console_putc`, `console_puts` and `console_write` return -1 with no
byte sent to the serial port if and only if the serial handle equals
`SERIAL_INVALID_HANDLE`, which is its value before `console_init` has run;
none of the three changes the serial handle; `console_putc` always returns,
`console_puts` returns when `s` holds a NUL byte and `console_write` when `buf`
holds at least `len` bytes, and with a valid handle and a count that fits in
`int` the value returned is non-negative. -/
theorem console_invalid_handle (pf : platform) (st : console_state) (ch : Int)
    (s buf : List Nat) (len : Nat) :
    (initial_state pf).serial_handle = pf.SERIAL_INVALID_HANDLE ∧
    ((console_putc pf st ch).2.serial_handle = st.serial_handle ∧
      (((console_putc pf st ch).1 = -1 ∧ sent st (console_putc pf st ch).2 = []) ↔
        st.serial_handle = pf.SERIAL_INVALID_HANDLE) ∧
      (st.serial_handle ≠ pf.SERIAL_INVALID_HANDLE → 0 ≤ (console_putc pf st ch).1)) ∧
    ((∀ r st', console_puts pf st s = some (r, st') →
        st'.serial_handle = st.serial_handle) ∧
      ((∃ st', console_puts pf st s = some (-1, st') ∧ sent st st' = []) ↔
        st.serial_handle = pf.SERIAL_INVALID_HANDLE) ∧
      (0 ∈ s → ∃ r st', console_puts pf st s = some (r, st') ∧
        (st.serial_handle ≠ pf.SERIAL_INVALID_HANDLE →
          (strlen s : Int) + (((s.take (strlen s)).count 10 : Nat) : Int) ≤ INT_MAX →
          0 ≤ r))) ∧
    ((∀ r st', console_write pf st buf len = some (r, st') →
        st'.serial_handle = st.serial_handle) ∧
      ((∃ st', console_write pf st buf len = some (-1, st') ∧ sent st st' = []) ↔
        st.serial_handle = pf.SERIAL_INVALID_HANDLE) ∧
      (len ≤ buf.length → ∃ r st', console_write pf st buf len = some (r, st') ∧
        (st.serial_handle ≠ pf.SERIAL_INVALID_HANDLE →
          (len : Int) + (((buf.take len).count 10 : Nat) : Int) ≤ INT_MAX → 0 ≤ r))) := by
  refine ⟨rfl, ?_, ?_, ?_⟩
  · obtain ⟨r, M, hres, _, hv, hi⟩ := console_putc_shape pf st ch
    rw [hres]
    dsimp only
    refine ⟨rfl, ?_, fun h => by rw [(hv h).1]⟩
    rw [sent_frame]
    by_cases hh : st.serial_handle = pf.SERIAL_INVALID_HANDLE
    · obtain ⟨hr, hM⟩ := hi hh
      subst hr hM
      exact ⟨fun _ => hh, fun _ => ⟨rfl, rfl⟩⟩
    · obtain ⟨hr, hM⟩ := hv hh
      subst hr
      exact ⟨fun h => absurd h.1 (by decide), fun h => absurd h hh⟩
  · obtain ⟨h1, h2⟩ := silent_iff pf st _ (console_puts_invalid pf st s)
      (console_puts_some pf st s)
    refine ⟨h1, h2, fun hnul => ?_⟩
    obtain ⟨r, M, hres, _, hv, hi, _⟩ := console_puts_shape pf st s hnul
    obtain ⟨_, _, hlt⟩ := strlen_split s hnul
    have hn : (s.take (strlen s)).length = strlen s := by
      rw [List.length_take]; omega
    exact ⟨r, _, hres, (silent_iff_invalid pf st r M _ _ hn hv hi).2⟩
  · obtain ⟨h1, h2⟩ := silent_iff pf st _ (console_write_invalid pf st buf len)
      (console_write_some pf st buf len)
    refine ⟨h1, h2, fun hbuf => ?_⟩
    obtain ⟨r, M, hres, _, hv, hi, _⟩ := console_write_shape pf st buf len hbuf
    have hn : (buf.take len).length = len := by
      rw [List.length_take]; omega
    exact ⟨r, _, hres, (silent_iff_invalid pf st r M _ _ hn hv hi).2⟩

theorem console_invalid_handle_witness :
    (∃ r st', console_puts ⟨0, 1000⟩ ⟨1, []⟩ [65, 10, 0] = some (r, st') ∧ 0 ≤ r) ∧
    (∃ r st', console_write ⟨0, 1000⟩ ⟨1, []⟩ [65, 10, 0] 2 = some (r, st') ∧ 0 ≤ r) ∧
    (∃ st', console_write ⟨0, 1000⟩ ⟨0, []⟩ [65, 10, 0] 7 = some (-1, st') ∧
      sent ⟨0, []⟩ st' = []) := by
  obtain ⟨_, _, ⟨_, _, h3⟩, ⟨_, _, k3⟩⟩ :=
    console_invalid_handle ⟨0, 1000⟩ ⟨1, []⟩ 65 [65, 10, 0] [65, 10, 0] 2
  obtain ⟨_, _, _, ⟨_, m2, _⟩⟩ :=
    console_invalid_handle ⟨0, 1000⟩ ⟨0, []⟩ 65 [65, 10, 0] [65, 10, 0] 7
  obtain ⟨r, st', h4, h5⟩ := h3 (by decide)
  obtain ⟨r2, st2, k4, k5⟩ := k3 (by decide)
  exact ⟨⟨r, st', h4, h5 (by decide) (by decide)⟩,
    ⟨r2, st2, k4, k5 (by decide) (by decide)⟩, m2.mpr rfl⟩

theorem puts_only (h : Nat) (M : List event)
    (hM : ∀ ev ∈ M, ∃ d, ev = event.serial_puts h d) :
    ∀ ev ∈ M, (∃ d, ev = event.serial_puts h d) ∨ ev = event.serial_get_rx_data h :=
  fun ev hev => Or.inl (hM ev hev)

/-- C3: started with the console lock free, each of `console_putc`,
`console_puts`, `console_write` and `console_read` makes, whenever it returns,
a run of calls in which the lock is obtained exactly once and released exactly
once, every `serial_puts` and `serial_get_rx_data` call is made while the lock
is held, and the lock is free at the end.  `console_putc` and `console_read`
always return; `console_puts` and `console_write` return with an invalid
handle, and with a valid one when `s` holds a NUL byte (the empty string
included), respectively when `buf` holds at least `len` bytes (`len = 0`
included). -/
theorem console_lock_discipline (pf : platform) (st : console_state) (ch : Int)
    (s buf : List Nat) (len : Nat) :
    (∃ T, (console_putc pf st ch).2.trace = st.trace ++ T ∧
      lock_run false T = some false ∧
      T.count event.spinlock_obtain = 1 ∧ T.count event.spinlock_release = 1) ∧
    ((∀ r st', console_puts pf st s = some (r, st') →
        ∃ T, st'.trace = st.trace ++ T ∧ lock_run false T = some false ∧
          T.count event.spinlock_obtain = 1 ∧ T.count event.spinlock_release = 1) ∧
      (st.serial_handle = pf.SERIAL_INVALID_HANDLE ∨ 0 ∈ s →
        ∃ r st', console_puts pf st s = some (r, st'))) ∧
    ((∀ r st', console_write pf st buf len = some (r, st') →
        ∃ T, st'.trace = st.trace ++ T ∧ lock_run false T = some false ∧
          T.count event.spinlock_obtain = 1 ∧ T.count event.spinlock_release = 1) ∧
      (st.serial_handle = pf.SERIAL_INVALID_HANDLE ∨ len ≤ buf.length →
        ∃ r st', console_write pf st buf len = some (r, st'))) ∧
    (∃ T, (console_read pf st).trace = st.trace ++ T ∧
      lock_run false T = some false ∧
      T.count event.spinlock_obtain = 1 ∧ T.count event.spinlock_release = 1) := by
  refine ⟨?_, ⟨fun r st' h => ?_, fun h => ?_⟩, ⟨fun r st' h => ?_, fun h => ?_⟩, ?_⟩
  · obtain ⟨r, M, hres, hM, _, _⟩ := console_putc_shape pf st ch
    obtain ⟨h1, h2, h3⟩ := lock_frame st.serial_handle M (puts_only _ M hM)
    exact ⟨_, by rw [hres]; simp, h1, h2, h3⟩
  · obtain ⟨M, hst, hM, _⟩ := console_puts_some pf st s r st' h
    obtain ⟨h1, h2, h3⟩ := lock_frame st.serial_handle M (puts_only _ M hM)
    exact ⟨_, by rw [hst]; simp, h1, h2, h3⟩
  · rcases h with h | h
    · exact ⟨_, _, console_puts_invalid pf st s h⟩
    · obtain ⟨r, M, hres, _⟩ := console_puts_shape pf st s h
      exact ⟨r, _, hres⟩
  · obtain ⟨M, hst, hM, _⟩ := console_write_some pf st buf len r st' h
    obtain ⟨h1, h2, h3⟩ := lock_frame st.serial_handle M (puts_only _ M hM)
    exact ⟨_, by rw [hst]; simp, h1, h2, h3⟩
  · rcases h with h | h
    · exact ⟨_, _, console_write_invalid pf st buf len h⟩
    · obtain ⟨r, M, hres, _⟩ := console_write_shape pf st buf len h
      exact ⟨r, _, hres⟩
  · by_cases hh : st.serial_handle = pf.SERIAL_INVALID_HANDLE
    · refine ⟨[event.spinlock_obtain, event.spinlock_release], ?_, ?_, ?_, ?_⟩
      · simp [console_read, call, hh]
      · simp [lock_run]
      · simp [List.count_cons]
      · simp [List.count_cons]
    · refine ⟨[event.spinlock_obtain, event.serial_get_rx_data st.serial_handle,
        event.spinlock_release], ?_, ?_, ?_, ?_⟩
      · simp [console_read, call, hh]
      · simp [lock_run]
      · simp [List.count_cons]
      · simp [List.count_cons]

theorem console_lock_discipline_witness :
    ∃ r st' T, console_write ⟨0, 1000⟩ ⟨1, []⟩ [10, 65, 0] 2 = some (r, st') ∧
      st'.trace = [] ++ T ∧ lock_run false T = some false ∧
      T.count event.spinlock_obtain = 1 ∧ T.count event.spinlock_release = 1 := by
  obtain ⟨_, _, ⟨h1, h2⟩, _⟩ :=
    console_lock_discipline ⟨0, 1000⟩ ⟨1, []⟩ 10 [10, 65, 0] [10, 65, 0] 2
  obtain ⟨r, st', h3⟩ := h2 (Or.inr (by decide))
  obtain ⟨T, h4⟩ := h1 r st' h3
  exact ⟨r, st', T, h3, h4⟩

/-- C8: with the serial handle equal to `SERIAL_INVALID_HANDLE`,
`console_setup_timer` only reports the missing uart: it reads no counter,
initialises no timer and adds none.  Otherwise it reads the counter once,
initialises `console_timer` once with handler `console_timer_callback`, no
private data, mode `TICK_MODE_PERIODIC`, period `CYCLES_PER_MS * 40` (a
`uint64_t` product, the exact product when that is below 2^64) and first expiry
the counter value plus the period modulo 2^64, and calls `add_timer` once,
reporting an error only when `add_timer` fails.  `console_timer_callback`
returns 0 for every state and argument. -/
theorem console_setup_timer_registers (pf : platform) (st : console_state) (tsc : Nat)
    (add_timer_ret : Int) (data : Nat) :
    (st.serial_handle = pf.SERIAL_INVALID_HANDLE →
      console_setup_timer pf st tsc add_timer_ret =
        { st with trace := st.trace ++ [event.pr_err] }) ∧
    (st.serial_handle ≠ pf.SERIAL_INVALID_HANDLE →
      console_setup_timer pf st tsc add_timer_ret =
        { st with trace := st.trace ++
          [event.rdtsc,
           event.initialize_timer timer_handle_t.console_timer_callback 0
             ((tsc + (pf.CYCLES_PER_MS * 40) % 2 ^ 64) % 2 ^ 64)
             tick_mode.TICK_MODE_PERIODIC ((pf.CYCLES_PER_MS * 40) % 2 ^ 64),
           event.add_timer] ++ (if add_timer_ret ≠ 0 then [event.pr_err] else []) }) ∧
    (pf.CYCLES_PER_MS * 40 < 2 ^ 64 →
      (pf.CYCLES_PER_MS * 40) % 2 ^ 64 = pf.CYCLES_PER_MS * 40) ∧
    (console_timer_callback pf st data).1 = 0 := by
  refine ⟨fun h => ?_, fun h => ?_, fun h => Nat.mod_eq_of_lt h, rfl⟩
  · simp [console_setup_timer, call, h]
  · by_cases hr : add_timer_ret = 0 <;>
      simp [console_setup_timer, call, h, hr, to_uint64, CONSOLE_KICK_TIMER_TIMEOUT]

theorem console_setup_timer_registers_witness :
    console_setup_timer ⟨0, 2000000⟩ ⟨1, []⟩ 18446744073709551615 0 =
      ⟨1, [event.rdtsc,
        event.initialize_timer timer_handle_t.console_timer_callback 0 79999999
          tick_mode.TICK_MODE_PERIODIC 80000000,
        event.add_timer]⟩ ∧
    (2000000 * 40) % 2 ^ 64 = 2000000 * 40 :=
  ⟨(console_setup_timer_registers ⟨0, 2000000⟩ ⟨1, []⟩ 18446744073709551615 0 0).2.1
      (by decide),
    (console_setup_timer_registers ⟨0, 2000000⟩ ⟨1, []⟩ 18446744073709551615 0 0).2.2.1
      (by decide)⟩

/-! ## `console_puts` as a refinement of `console_write` -/

theorem strlen_replicate (n c : Nat) (hc : c ≠ 0) (rest : List Nat) :
    strlen (List.replicate n c ++ 0 :: rest) = n := by
  induction n with
  | zero => simp [strlen]
  | succ k ih => simp [List.replicate_succ, strlen, hc, ih]

theorem console_puts_replicate (pf : platform) (st : console_state) (n : Nat)
    (hvalid : st.serial_handle ≠ pf.SERIAL_INVALID_HANDLE) :
    ∃ st', console_puts pf st (List.replicate n 65 ++ [0]) = some (to_int (n : Int), st') := by
  obtain ⟨r, M, hres, _, hv, _, _⟩ :=
    console_puts_shape pf st (List.replicate n 65 ++ [0]) (by simp)
  obtain ⟨hr, _⟩ := hv hvalid
  have hs : strlen (List.replicate n 65 ++ [0]) = n := strlen_replicate n 65 (by decide) []
  have hc : ((List.replicate n 65 ++ [0]).take n).count 10 = 0 := by
    rw [List.take_left' (List.length_replicate n 65)]
    exact List.count_eq_zero.mpr (fun h => by
      have := List.eq_of_mem_replicate h
      omega)
  rw [hs, hc] at hr
  simp only [Nat.cast_zero, add_zero] at hr
  exact ⟨_, by rw [hres, hr]⟩

/-- C9, as stated, fails for a string of 2^31 bytes: with a valid handle
`console_puts` on 2147483648 letters `A` followed by NUL returns -2147483648,
while the length of the string plus its number of line feeds is 2147483648. -/
theorem console_puts_long_string :
    (∃ st', console_puts ⟨0, 1000⟩ ⟨1, []⟩ (List.replicate 2147483648 65 ++ [0]) =
      some (-2147483648, st')) ∧
    strlen (List.replicate 2147483648 65 ++ [0]) = 2147483648 ∧
    (List.replicate 2147483648 65 ++ [0]).count 10 = 0 := by
  refine ⟨?_, strlen_replicate 2147483648 65 (by decide) [], ?_⟩
  swap
  · apply List.count_eq_zero.mpr
    intro h
    rcases List.mem_append.mp h with h | h
    · have := List.eq_of_mem_replicate h
      omega
    · simp at h
  obtain ⟨st', h⟩ := console_puts_replicate ⟨0, 1000⟩ ⟨1, []⟩ 2147483648 (by decide)
  have hv : to_int ((2147483648 : Nat) : Int) = -2147483648 := by
    unfold to_int; norm_num
  rw [hv] at h
  exact ⟨st', h⟩

/-- C9, amended: for every buffer `s` that holds a NUL byte and every state of
the serial handle, `console_puts` returns, and it ends in the same state (the
same calls with the same bytes, in the same order) with the same value as
`console_write` on `s` and `strlen s`; with a valid handle and `strlen s` plus
the number of line feeds before the NUL at most `INT_MAX`, the value is that
sum, and it is 0 with no serial call for the empty string. -/
theorem console_puts_refines_write (pf : platform) (st : console_state) (s : List Nat)
    (hnul : 0 ∈ s) :
    console_puts pf st s = console_write pf st s (strlen s) ∧
    (∃ r st', console_puts pf st s = some (r, st')) ∧
    (st.serial_handle ≠ pf.SERIAL_INVALID_HANDLE →
      (strlen s : Int) + (((s.take (strlen s)).count 10 : Nat) : Int) ≤ INT_MAX →
      ∃ st', console_puts pf st s =
        some ((strlen s : Int) + (((s.take (strlen s)).count 10 : Nat) : Int), st')) ∧
    (st.serial_handle ≠ pf.SERIAL_INVALID_HANDLE → strlen s = 0 →
      console_puts pf st s = some (0, { st with trace :=
        st.trace ++ [event.spinlock_obtain, event.spinlock_release] })) := by
  obtain ⟨r, M, hres, _, hv, _, h0⟩ := console_puts_shape pf st s hnul
  refine ⟨console_puts_eq_write pf st s hnul, ⟨r, _, hres⟩, fun hh hfit => ?_,
    fun hh hz => ?_⟩
  · obtain ⟨hr, _⟩ := hv hh
    rw [to_int_of_fits _ (by omega) hfit] at hr
    exact ⟨_, by rw [hres, hr]⟩
  · obtain ⟨hr, _⟩ := hv hh
    have hM := h0 hz
    rw [hz] at hr
    simp [to_int] at hr
    subst hr hM
    simpa using hres

theorem console_puts_refines_write_witness :
    console_puts ⟨0, 1000⟩ ⟨1, []⟩ [65, 10, 66, 0, 67] =
      console_write ⟨0, 1000⟩ ⟨1, []⟩ [65, 10, 66, 0, 67] 3 ∧
    ∃ st', console_puts ⟨0, 1000⟩ ⟨1, []⟩ [65, 10, 66, 0, 67] = some (4, st') :=
  ⟨(console_puts_refines_write ⟨0, 1000⟩ ⟨1, []⟩ [65, 10, 66, 0, 67] (by decide)).1,
    (console_puts_refines_write ⟨0, 1000⟩ ⟨1, []⟩ [65, 10, 66, 0, 67] (by decide)).2.2.1
      (by decide) (by decide)⟩

/-! ## guest.h: `foreach_vcpu` -/

theorem foreach_loop_spec {β : Type} (v : vm) (body : Nat → Nat → β → β) :
    ∀ fuel (st : foreach_state β), st.idx ≤ v.num_vcpus → v.num_vcpus - st.idx < fuel →
      st.vcpu = v.vcpu_array st.idx →
      foreach_vcpu_loop v body fuel st = some
        { idx := v.num_vcpus, vcpu := v.vcpu_array v.num_vcpus,
          reads := st.reads ++ List.range' (st.idx + 1) (v.num_vcpus - st.idx),
          acc := ((((List.range' st.idx (v.num_vcpus - st.idx)).filter
            (fun i => v.vcpu_array i ≠ 0)).map (fun i => (i, v.vcpu_array i))).foldl
              (fun a p => body p.1 p.2 a) st.acc) } := by
  intro fuel
  induction fuel with
  | zero => intro st _ h; omega
  | succ f ih =>
    intro st hle hf hv
    unfold foreach_vcpu_loop
    by_cases hlt : st.idx < v.num_vcpus
    · have hk : v.num_vcpus - st.idx = (v.num_vcpus - (st.idx + 1)) + 1 := by omega
      simp only [hlt, if_true]
      rw [ih _ (by simpa using hlt) (by simp only; omega) rfl, hk, List.range'_succ,
        List.range'_succ]
      by_cases hnz : v.vcpu_array st.idx = 0
      · simp [hv, hnz]
      · simp [hv, hnz]
    · have he : st.idx = v.num_vcpus := by omega
      obtain ⟨i, p, r, a⟩ := st
      simp only at he hv
      subst he hv
      simp

theorem foreach_loop_short {β : Type} (v : vm) (body : Nat → Nat → β → β) :
    ∀ fuel (st : foreach_state β), fuel + st.idx ≤ v.num_vcpus →
      foreach_vcpu_loop v body fuel st = none := by
  intro fuel
  induction fuel with
  | zero => intro st _; rfl
  | succ f ih =>
    intro st h
    unfold foreach_vcpu_loop
    have hlt : st.idx < v.num_vcpus := by omega
    simp only [hlt, if_true]
    exact ih _ (by simp only; omega)

theorem foreach_vcpu_result {β : Type} (v : vm) (body : Nat → Nat → β → β) (acc : β) :
    foreach_vcpu v body acc = some
      { idx := v.num_vcpus, vcpu := v.vcpu_array v.num_vcpus,
        reads := List.range (v.num_vcpus + 1),
        acc := (live_slots v).foldl (fun a p => body p.1 p.2 a) acc } := by
  unfold foreach_vcpu
  rw [foreach_loop_spec v body _ _ (Nat.zero_le _) (by simp [foreach_init]) rfl]
  simp only [foreach_init, live_slots, Nat.sub_zero, List.range_eq_range']
  rw [List.range'_succ]
  rfl

theorem foldl_record_visit (l acc : List (Nat × Nat)) :
    l.foldl (fun a p => record_visit p.1 p.2 a) acc = acc ++ l := by
  induction l generalizing acc with
  | nil => simp
  | cons x t ih =>
    rw [List.foldl_cons, ih]
    simp [record_visit]

theorem mem_live_slots (v : vm) (i p : Nat) :
    (i, p) ∈ live_slots v ↔ i < v.num_vcpus ∧ p = v.vcpu_array i ∧ p ≠ 0 := by
  simp only [live_slots, List.mem_map, List.mem_filter, List.mem_range, Prod.mk.injEq,
    decide_eq_true_eq]
  constructor
  · rintro ⟨a, ⟨h1, h2⟩, h3, h4⟩
    subst h3 h4
    exact ⟨h1, rfl, h2⟩
  · rintro ⟨h1, h2, h3⟩
    subst h2
    exact ⟨i, ⟨h1, h3⟩, rfl, rfl⟩

theorem live_slots_fst (v : vm) :
    (live_slots v).map Prod.fst =
      (List.range v.num_vcpus).filter (fun i => v.vcpu_array i ≠ 0) := by
  simp [live_slots, List.map_map, Function.comp_def]

/-- C4: for every VM and every loop body, `foreach_vcpu` ends, after exactly
`num_vcpus` rounds (one test more ends it, fewer tests do not), having run the
body on the live slots and on nothing else: the indices below `num_vcpus` whose
`vcpu_array` slot is not null, in strictly increasing order, each once and with
`vcpu` bound to the pointer in that slot; there is no live slot when
`num_vcpus` is 0, and a second run over the same VM visits the same slots. -/
theorem foreach_vcpu_visits {β : Type} (v : vm) (body : Nat → Nat → β → β) (acc : β) :
    (∃ final, foreach_vcpu v body acc = some final ∧ final.idx = v.num_vcpus ∧
      final.acc = (live_slots v).foldl (fun a p => body p.1 p.2 a) acc) ∧
    (∀ fuel, fuel ≤ v.num_vcpus →
      foreach_vcpu_loop v body fuel (foreach_init v acc) = none) ∧
    (∃ first, foreach_vcpu v record_visit [] = some first ∧ first.acc = live_slots v ∧
      ∃ second, foreach_vcpu v record_visit first.acc = some second ∧
        second.acc = live_slots v ++ live_slots v) ∧
    (∀ i p, (i, p) ∈ live_slots v ↔ i < v.num_vcpus ∧ p = v.vcpu_array i ∧ p ≠ 0) ∧
    ((live_slots v).map Prod.fst).Pairwise (fun a b => a < b) ∧
    (v.num_vcpus = 0 → live_slots v = []) := by
  refine ⟨⟨_, foreach_vcpu_result v body acc, rfl, rfl⟩, fun fuel h => ?_,
    ⟨_, foreach_vcpu_result v record_visit [], ?_, _, foreach_vcpu_result v record_visit _, ?_⟩,
    mem_live_slots v, ?_, fun h => ?_⟩
  · exact foreach_loop_short v body fuel _ (by simpa [foreach_init] using h)
  · simp [foldl_record_visit]
  · simp [foldl_record_visit]
  · rw [live_slots_fst]
    exact (List.pairwise_lt_range _).filter _
  · simp [live_slots, h]

theorem foreach_vcpu_visits_witness :
    (∃ final, foreach_vcpu ⟨3, 4, fun i => if i = 1 then 0 else 100 + i⟩ record_visit [] =
      some final ∧ final.idx = 3 ∧ final.acc = [(0, 100), (2, 102)]) ∧
    foreach_vcpu_loop ⟨3, 4, fun i => if i = 1 then 0 else 100 + i⟩ record_visit 3
      (foreach_init ⟨3, 4, fun i => if i = 1 then 0 else 100 + i⟩ []) = none := by
  obtain ⟨⟨final, h1, h2, h3⟩, h4, _⟩ :=
    foreach_vcpu_visits ⟨3, 4, fun i => if i = 1 then 0 else 100 + i⟩ record_visit []
  exact ⟨⟨final, h1, h2, by rw [h3]; decide⟩, h4 3 (by decide)⟩

/-- C10: `foreach_vcpu` reads `vcpu_array` at every index from 0 to `num_vcpus`
inclusive, in that order: slot 0 in the init clause, before any test and also
when `num_vcpus` is 0, and slot `num_vcpus` last, in the step before the test
that ends the loop.  Hence all its reads are inside the array if and only if
`num_vcpus` is strictly less than the number of slots; the body is run on the
live slots only, never on slot `num_vcpus`. -/
theorem foreach_vcpu_reads {β : Type} (v : vm) (body : Nat → Nat → β → β) (acc : β) :
    (foreach_init v acc).reads = [0] ∧
    ∃ final, foreach_vcpu v body acc = some final ∧
      final.reads = List.range (v.num_vcpus + 1) ∧
      final.reads.getLast? = some v.num_vcpus ∧
      ((∀ i ∈ final.reads, i < v.vcpu_array_len) ↔ v.num_vcpus < v.vcpu_array_len) ∧
      final.acc = (live_slots v).foldl (fun a p => body p.1 p.2 a) acc ∧
      ∀ p, (v.num_vcpus, p) ∉ live_slots v := by
  refine ⟨rfl, _, foreach_vcpu_result v body acc, rfl, ?_, ?_, rfl, fun p hp => ?_⟩
  · simp only [List.range_succ, List.getLast?_concat]
  · simp only [List.mem_range]
    constructor
    · intro h
      exact h v.num_vcpus (by omega)
    · intro h i hi
      omega
  · have := ((mem_live_slots v _ _).mp hp).1
    omega

theorem foreach_vcpu_reads_witness :
    ∃ final, foreach_vcpu ⟨2, 2, fun i => 100 + i⟩ record_visit [] = some final ∧
      final.reads = [0, 1, 2] ∧ final.acc = [(0, 100), (1, 101)] ∧
      ¬ (∀ i ∈ final.reads, i < 2) := by
  obtain ⟨_, final, h1, h2, _, h4, h5, _⟩ :=
    foreach_vcpu_reads ⟨2, 2, fun i => 100 + i⟩ record_visit []
  refine ⟨final, h1, by rw [h2]; decide, by rw [h5]; decide, fun h => ?_⟩
  exact absurd (h4.mp h) (by decide)

/-! ## guest.h: request kinds and MSR indices -/

theorem request_mask_eq (k : Nat) (hk : k < 64) : request_mask k = 2 ^ k := by
  unfold request_mask
  rw [Nat.one_shiftLeft]
  exact Nat.mod_eq_of_lt (Nat.pow_lt_pow_right (by decide) hk)

theorem request_kind_lt (k : Nat) (hk : k ∈ request_kinds) : k < 8 := by
  simp only [request_kinds, ACRN_REQUEST_EXCP, ACRN_REQUEST_EVENT, ACRN_REQUEST_EXTINT,
    ACRN_REQUEST_NMI, ACRN_REQUEST_TMR_UPDATE, ACRN_REQUEST_EPT_FLUSH, ACRN_REQUEST_TRP_FAULT,
    ACRN_REQUEST_VPID_FLUSH, List.mem_cons, List.mem_singleton] at hk
  simp only [List.not_mem_nil, or_false] at hk
  omega

/-- C5: the eight request kinds (exception, event, external interrupt, NMI,
timer update, EPT flush, translation fault, VPID flush) are the numbers 0 to 7
in that order, pairwise distinct; for two distinct kinds `j` and `k` the masks
`1 << j` and `1 << k` have no bit in common, and for every bitmap setting or
clearing bit `j` leaves bit `k` as it was (while bit `j` itself becomes set,
respectively clear). -/
theorem request_bits_distinct (bitmap j k : Nat) (hj : j ∈ request_kinds)
    (hk : k ∈ request_kinds) (hjk : j ≠ k) :
    request_kinds = [0, 1, 2, 3, 4, 5, 6, 7] ∧ request_kinds.Nodup ∧
    request_mask j &&& request_mask k = 0 ∧
    test_request (set_request bitmap j) k = test_request bitmap k ∧
    test_request (clear_request bitmap j) k = test_request bitmap k ∧
    test_request (set_request bitmap j) j = true ∧
    test_request (clear_request bitmap j) j = false := by
  have hj8 := request_kind_lt j hj
  have hk8 := request_kind_lt k hk
  have hall : (18446744073709551615 : Nat) = 2 ^ 64 - 1 := by norm_num
  refine ⟨rfl, by decide, ?_, ?_, ?_, ?_, ?_⟩
  · rw [request_mask_eq j (by omega), request_mask_eq k (by omega)]
    apply Nat.eq_of_testBit_eq
    intro i
    simp only [Nat.testBit_and, Nat.testBit_two_pow, Nat.zero_testBit]
    by_cases h1 : j = i
    · have h2 : ¬ k = i := fun h => hjk (h1.trans h.symm)
      simp [h2]
    · simp [h1]
  · simp [test_request, set_request, request_mask_eq j (by omega), Nat.testBit_or,
      Nat.testBit_two_pow, hjk]
  · rw [test_request, clear_request, request_mask_eq j (by omega), hall]
    simp only [Nat.testBit_and, Nat.testBit_xor, Nat.testBit_two_pow_sub_one,
      Nat.testBit_two_pow, test_request]
    have h64 : k < 64 := by omega
    simp [h64, hjk]
  · simp [test_request, set_request, request_mask_eq j (by omega), Nat.testBit_or,
      Nat.testBit_two_pow]
  · rw [test_request, clear_request, request_mask_eq j (by omega), hall]
    simp only [Nat.testBit_and, Nat.testBit_xor, Nat.testBit_two_pow_sub_one,
      Nat.testBit_two_pow]
    have h64 : j < 64 := by omega
    simp [h64]

theorem request_bits_distinct_witness :
    request_mask ACRN_REQUEST_NMI &&& request_mask ACRN_REQUEST_EPT_FLUSH = 0 ∧
    test_request (set_request 32 ACRN_REQUEST_NMI) ACRN_REQUEST_EPT_FLUSH =
      test_request 32 ACRN_REQUEST_EPT_FLUSH ∧
    test_request (clear_request 40 ACRN_REQUEST_NMI) ACRN_REQUEST_EPT_FLUSH =
      test_request 40 ACRN_REQUEST_EPT_FLUSH := by
  obtain ⟨_, _, h1, h2, h3, _, _⟩ :=
    request_bits_distinct 32 ACRN_REQUEST_NMI ACRN_REQUEST_EPT_FLUSH
      (by decide) (by decide) (by decide)
  obtain ⟨_, _, _, _, k3, _, _⟩ :=
    request_bits_distinct 40 ACRN_REQUEST_NMI ACRN_REQUEST_EPT_FLUSH
      (by decide) (by decide) (by decide)
  exact ⟨h1, h2, k3⟩

/-- C6: the emulated-MSR indices are TSC-deadline = 0, BIOS-update-trigger = 1,
BIOS-signature = 2, TSC = 3 and PAT = 4, pairwise distinct and contiguous from
0, and `IDX_MAX_MSR` is 5; a number is below `IDX_MAX_MSR`, that is a valid
index into a table of `IDX_MAX_MSR` entries, if and only if it is one of these
five indices. -/
theorem msr_index_set_closed (n : Nat) :
    IDX_TSC_DEADLINE = 0 ∧ IDX_BIOS_UPDT_TRIG = 1 ∧ IDX_BIOS_SIGN_ID = 2 ∧ IDX_TSC = 3 ∧
    IDX_PAT = 4 ∧ IDX_MAX_MSR = 5 ∧ msr_indices = List.range IDX_MAX_MSR ∧
    msr_indices.Nodup ∧ (n < IDX_MAX_MSR ↔ n ∈ msr_indices) := by
  refine ⟨rfl, rfl, rfl, rfl, rfl, rfl, by decide, by decide, ?_⟩
  have h5 : IDX_MAX_MSR = 5 := rfl
  have hl : msr_indices = [0, 1, 2, 3, 4] := rfl
  rw [h5, hl]
  simp only [List.mem_cons, List.mem_singleton, List.not_mem_nil, or_false]
  omega

end Acrn
